import Mathlib

/-!
Verification of the serial 8x8-matrix classification sketch.

The development shallowly embeds the sketch's core: the sanitizer and
matrix parser (`parseMatrizFromString`), the line assembler
(`serialEvent` plus the consuming `loop`), and the decision logic of
`runInferenceAndBlinkLed` (argmax scan, 0.85 threshold, blink table).
Floating-point values are represented exactly as rationals; timing
instrumentation and serial printing are omitted, as no claim depends
on them.
-/

namespace SerialIACNN

/-- Matrix dimension `tamMatriz = 8`. -/
abbrev tamMatriz : Nat := 8

/-- Number of values the parser must extract, `tamMatriz * tamMatriz = 64`. -/
abbrev expectedValues : Nat := tamMatriz * tamMatriz

/-- The label table `LABELS`. -/
def LABELS : List String := ["Normal", "Def_Rolo", "Def_Pista_Ext"]

/-- `NUM_LABELS = sizeof(LABELS)/sizeof(LABELS[0]) = 3`. -/
abbrev NUM_LABELS : Nat := 3

/-- The confidence threshold `0.85` compared against `maiorValor`. -/
def limiar : ℚ := mkRat 85 100

/-- Numeric value of a digit character. -/
def digitVal (c : Char) : Nat := c.toNat - '0'.toNat

/-- Value of a digit string, most significant digit first. -/
def digitsToNat (ds : List Char) : Nat :=
  ds.foldl (fun acc c => 10 * acc + digitVal c) 0

/-- Optional leading sign of a numeric token: `(isNegative, rest)`. -/
def splitSign : List Char → Bool × List Char
  | '-' :: r => (true, r)
  | '+' :: r => (false, r)
  | s => (false, s)

/-- Value of an optional exponent digit string after `e`/`E`; a malformed
exponent contributes the neutral exponent 0 (the conversion backs off). -/
def expDigits (r : List Char) : Int :=
  let p := match r with
    | '-' :: q => (true, q)
    | '+' :: q => (false, q)
    | q => (false, q)
  let ds := p.2.takeWhile Char.isDigit
  if ds = [] then 0
  else if p.1 then -(digitsToNat ds : Int) else (digitsToNat ds : Int)

/-- Exponent part of a numeric token, read from the remainder after the
mantissa. -/
def expValue : List Char → Int
  | 'e' :: r => expDigits r
  | 'E' :: r => expDigits r
  | _ => 0

/-- Modelled from the spec: the conversion routine applied to each token
(`String::toFloat` of the runtime library, whose code is not part of this
repository). Best-effort numeric parsing of `sign digits [. digits]
[e|E sign digits]`; a token that fails to convert to a valid number (no
mantissa digit at all) yields the value `0.0`; the conversion never
fails. Values are represented exactly as rationals. -/
def toFloat (s : List Char) : ℚ :=
  let sg := splitSign s
  let intDs := sg.2.takeWhile Char.isDigit
  let s2 := sg.2.dropWhile Char.isDigit
  let fr : List Char × List Char :=
    match s2 with
    | [] => ([], [])
    | c :: r =>
      if c = '.' then (r.takeWhile Char.isDigit, r.dropWhile Char.isDigit) else ([], c :: r)
  if intDs = [] ∧ fr.1 = [] then 0
  else
    let e : Int := expValue fr.2
    let mantNum : Nat := digitsToNat intDs * 10 ^ fr.1.length + digitsToNat fr.1
    let num : Int := if sg.1 then -(mantNum : Int) else (mantNum : Int)
    if 0 ≤ e then mkRat (num * 10 ^ e.toNat) (10 ^ fr.1.length)
    else mkRat num (10 ^ fr.1.length * 10 ^ (-e).toNat)

/-- `str.replace(c, "")` for a single character `c`: removes every
occurrence of `c`. -/
def removeChar (c : Char) (s : List Char) : List Char :=
  s.filter (fun x => x ≠ c)

/-- The characters stripped by the replace chain of
`parseMatrizFromString`: the four bracket variants and whitespace. -/
def stripChars : List Char := ['[', ']', '\x7b', '\x7d', '\t', '\n', '\r', ' ']

/-- The sanitizer: the chain of eight `str.replace(_, "")` calls at the
top of `parseMatrizFromString`, applied in source order. -/
def sanitize (s : List Char) : List Char :=
  removeChar ' ' (removeChar '\r' (removeChar '\n' (removeChar '\t'
    (removeChar '\x7d' (removeChar '\x7b' (removeChar ']' (removeChar '[' s)))))))

/-- The two failure conditions of the parser, named as in the spec:
the `return false` on an empty token is `malformedToken`, the
`return false` on `idx != expectedValues` is `insufficientValues`. -/
inductive ParseError where
  | malformedToken
  | insufficientValues
deriving DecidableEq

/-- Result of the parser: the extracted values, or which check failed.
The source collapses both failures to the boolean `false`. -/
inductive ParseResult where
  | ok (vals : List ℚ)
  | error (e : ParseError)
deriving DecidableEq

/-- One tokenization step: `str.indexOf(',', start)` plus the two
`substring` calls. Returns the token before the first comma and, when a
comma was found, the remainder after it. -/
def splitFirstComma : List Char → List Char × Option (List Char)
  | [] => ([], none)
  | c :: cs =>
    if c = ',' then ([], some cs)
    else
      let r := splitFirstComma cs
      (c :: r.1, r.2)

/-- The `while (idx < expectedValues)` loop of `parseMatrizFromString`,
with `fuel = expectedValues - idx` and `acc` the prefix of `valores`
already filled. An empty token returns `false` (malformedToken); when
no comma is found the loop breaks after storing the token, and the
`idx != expectedValues` check decides between success and
insufficientValues. -/
def parseLoop : Nat → List Char → List ℚ → ParseResult
  | 0, _, acc => .ok acc
  | fuel + 1, s, acc =>
    let p := splitFirstComma s
    if p.1 = [] then .error .malformedToken
    else
      match p.2 with
      | none => if fuel = 0 then .ok (acc ++ [toFloat p.1]) else .error .insufficientValues
      | some rest => parseLoop fuel rest (acc ++ [toFloat p.1])

/-- `parseMatrizFromString`: sanitize, then run the extraction loop for
`expectedValues` tokens. -/
def parseMatrizFromString (s : List Char) : ParseResult :=
  parseLoop expectedValues (sanitize s) []

/-- The boolean the source actually returns. -/
def isOk : ParseResult → Bool
  | .ok _ => true
  | .error _ => false

/-- The mutable global state touched by the parser: the matrix
`matrizEntrada`. -/
structure DeviceState where
  matrizEntrada : Fin tamMatriz → Fin tamMatriz → ℚ

/-- A call to `parseMatrizFromString` as a state transformer: the local
buffer `valores` is copied into `matrizEntrada[i][j] = valores[i*8+j]`
only after both checks passed; the early `return false` paths leave the
global matrix untouched. -/
def parseMatrizCall (s : List Char) (st : DeviceState) : Bool × DeviceState :=
  match parseMatrizFromString s with
  | .error _ => (false, st)
  | .ok vals => (true, ⟨fun i j => vals.getD (i.val * tamMatriz + j.val) 0⟩)

/-- Comma-splitting of a whole stream (specification-side view of the
tokenization): the list of maximal comma-free segments, empties
included. -/
def splitOnCommasAux : List Char → List Char → List (List Char)
  | [], cur => [cur.reverse]
  | c :: cs, cur =>
    if c = ',' then cur.reverse :: splitOnCommasAux cs []
    else splitOnCommasAux cs (c :: cur)

/-- All comma-delimited tokens of a stream, in order, empties included. -/
def splitOnCommas (s : List Char) : List (List Char) := splitOnCommasAux s []

/-- The extraction loop rephrased on the token list of the stream; used
to reason about `parseLoop` via `splitOnCommas`. -/
def parseTokens : Nat → List (List Char) → List ℚ → ParseResult
  | 0, _, acc => .ok acc
  | _ + 1, [], acc => .ok acc
  | fuel + 1, t :: ts, acc =>
    if t = [] then .error .malformedToken
    else
      match ts with
      | [] => if fuel = 0 then .ok (acc ++ [toFloat t]) else .error .insufficientValues
      | _ :: _ => parseTokens fuel ts (acc ++ [toFloat t])

/-- The decision computed at the end of `runInferenceAndBlinkLed`:
`maiorValor`/`indiceMaior` after the scan, whether the threshold branch
was taken, and how many LED blink repetitions were requested. -/
structure DecisionR where
  maiorValor : ℚ
  indiceMaior : Int
  positive : Bool
  blinks : Nat
deriving DecidableEq

/-- The argmax scan: `maiorValor = 0.0; indiceMaior = -1;` then for
`i = 0 .. NUM_LABELS-1`, update on strict `prob > maiorValor`. -/
def argmaxLoop (probs : Fin NUM_LABELS → ℚ) : ℚ × Int :=
  (List.finRange NUM_LABELS).foldl
    (fun acc i => if probs i > acc.1 then (probs i, (i.val : Int)) else acc) (0, -1)

/-- The `switch (indiceMaior)` blink table: class 0 → 1 repetition,
1 → 2, 2 → 3; any other value falls through with no blink. -/
def blinkCount (i : Int) : Nat :=
  if i = 0 then 1 else if i = 1 then 2 else if i = 2 then 3 else 0

/-- The threshold decision: positive (with the blink table applied) iff
`maiorValor >= 0.85`, else the "Nenhuma classe" branch. -/
def runDecision (probs : Fin NUM_LABELS → ℚ) : DecisionR :=
  let r := argmaxLoop probs
  if limiar ≤ r.1 then ⟨r.1, r.2, true, blinkCount r.2⟩
  else ⟨r.1, r.2, false, 0⟩

/-- The inference engine as an opaque collaborator: whether
`modelRunInference()` succeeds, and the probabilities `modelGetOutput`
would report. -/
structure InferenceEngine where
  runOk : Bool
  output : Fin NUM_LABELS → ℚ

/-- Outcome of `runInferenceAndBlinkLed` after the inference call: on
engine failure the function returns at once (no per-class report, no
threshold comparison, no LED action); otherwise the decision logic
runs. -/
inductive InferenceOutcome where
  | failed
  | completed (d : DecisionR)
deriving DecidableEq

/-- `runInferenceAndBlinkLed`, abstracted over the engine. -/
def runInferenceAndBlinkLed (eng : InferenceEngine) : InferenceOutcome :=
  if eng.runOk then .completed (runDecision eng.output) else .failed

/-- Number of `piscarLED` pulses the call emits. -/
def ledPulses (eng : InferenceEngine) : Nat :=
  match runInferenceAndBlinkLed eng with
  | .failed => 0
  | .completed d => d.blinks

/-- The line assembler's globals: `inputString` and `stringComplete`. -/
structure AssemblerState where
  inputString : List Char
  stringComplete : Bool
deriving DecidableEq

/-- One invocation of `serialEvent` on the currently available bytes:
drains the buffer one byte at a time, skipping `\r`, appending other
bytes to `inputString`, and on `\n` setting `stringComplete` and
breaking out; returns the new state and the bytes left unread in the
hardware buffer. -/
def serialEvent : List Char → AssemblerState → AssemblerState × List Char
  | [], st => (st, [])
  | c :: rest, st =>
    if c = '\r' then serialEvent rest st
    else if c = '\n' then ({ st with stringComplete := true }, rest)
    else serialEvent rest { st with inputString := st.inputString ++ [c] }

/-- One iteration of `loop()`: when `stringComplete` is set, the
completed line is consumed (processed and cleared) and the flag is
reset; otherwise nothing happens. -/
def loopStep (st : AssemblerState) : AssemblerState × Option (List Char) :=
  if st.stringComplete then (⟨[], false⟩, some st.inputString)
  else (st, none)

/-- One turn of the Arduino scheduler: `loop()` runs, then `serialEvent`
drains whatever bytes arrived. Returns the new state, the bytes still
unread, and the line consumed by `loop()` (if any). -/
def cycle (st : AssemblerState) (avail : List Char) :
    AssemblerState × List Char × Option (List Char) :=
  let p := loopStep st
  let q := serialEvent avail p.1
  (q.1, q.2, p.2)

/-! ## Tokenization lemmas -/

theorem splitOnCommasAux_eq (s cur : List Char) :
    splitOnCommasAux s cur =
      match splitFirstComma s with
      | (t, none) => [cur.reverse ++ t]
      | (t, some r) => (cur.reverse ++ t) :: splitOnCommas r := by
  induction s generalizing cur with
  | nil => simp [splitOnCommasAux, splitFirstComma]
  | cons c cs ih =>
    by_cases hc : c = ','
    · subst hc
      simp [splitOnCommasAux, splitFirstComma, splitOnCommas]
    · rcases h : splitFirstComma cs with ⟨t, r⟩
      cases r with
      | none =>
        simp [splitOnCommasAux, splitFirstComma, hc, ih (c :: cur), h]
      | some r =>
        simp [splitOnCommasAux, splitFirstComma, hc, ih (c :: cur), h]

theorem splitOnCommas_eq (s : List Char) :
    splitOnCommas s =
      match splitFirstComma s with
      | (t, none) => [t]
      | (t, some r) => t :: splitOnCommas r := by
  have h := splitOnCommasAux_eq s []
  simpa [splitOnCommas] using h

theorem splitOnCommas_ne_nil (s : List Char) : splitOnCommas s ≠ [] := by
  rw [splitOnCommas_eq]
  rcases splitFirstComma s with ⟨t, _ | r⟩ <;> simp

theorem parseLoop_eq_parseTokens (fuel : Nat) (s : List Char) (acc : List ℚ) :
    parseLoop fuel s acc = parseTokens fuel (splitOnCommas s) acc := by
  induction fuel generalizing s acc with
  | zero =>
    rcases h : splitOnCommas s with _ | ⟨t, ts⟩
    · exact absurd h (splitOnCommas_ne_nil s)
    · simp [parseLoop, parseTokens]
  | succ fuel ih =>
    rw [splitOnCommas_eq]
    rcases h : splitFirstComma s with ⟨t, r⟩
    cases r with
    | none =>
      simp only [parseLoop, h, parseTokens]
    | some r =>
      rcases hr : splitOnCommas r with _ | ⟨t2, ts2⟩
      · exact absurd hr (splitOnCommas_ne_nil r)
      · simp only [parseLoop, h, parseTokens, ih, hr]

/-! ## Behavior of the extraction loop on the token list -/

theorem parseTokens_ok (fuel : Nat) (ts : List (List Char)) (acc : List ℚ)
    (hlen : fuel ≤ ts.length) (hne : ∀ i < fuel, ts.getD i [] ≠ []) :
    parseTokens fuel ts acc = .ok (acc ++ (ts.take fuel).map toFloat) := by
  induction fuel generalizing ts acc with
  | zero => simp [parseTokens]
  | succ fuel ih =>
    rcases ts with _ | ⟨t, ts'⟩
    · simp at hlen
    · have ht : t ≠ [] := by
        have := hne 0 (by omega)
        simpa using this
      rcases ts' with _ | ⟨t2, tl⟩
      · have hf : fuel = 0 := by simp at hlen; omega
        subst hf
        simp [parseTokens, ht]
      · have step : parseTokens (fuel + 1) (t :: t2 :: tl) acc =
            parseTokens fuel (t2 :: tl) (acc ++ [toFloat t]) := by
          simp [parseTokens, ht]
        rw [step, ih]
        · simp [List.take_succ_cons]
        · simp at hlen ⊢; omega
        · intro i hi
          have := hne (i + 1) (by omega)
          simpa using this

theorem parseTokens_malformed (fuel : Nat) (ts : List (List Char)) (acc : List ℚ)
    (i : Nat) (hif : i < fuel) (hil : i < ts.length) (hemp : ts.getD i [] = [])
    (hmin : ∀ j < i, ts.getD j [] ≠ []) :
    parseTokens fuel ts acc = .error .malformedToken := by
  induction fuel generalizing ts acc i with
  | zero => omega
  | succ fuel ih =>
    rcases ts with _ | ⟨t, ts'⟩
    · simp at hil
    · rcases i with _ | i
      · have ht : t = [] := by simpa using hemp
        subst ht
        rcases ts' with _ | ⟨t2, tl⟩ <;> simp [parseTokens]
      · have ht : t ≠ [] := by
          have := hmin 0 (by omega)
          simpa using this
        rcases ts' with _ | ⟨t2, tl⟩
        · simp at hil
        · have step : parseTokens (fuel + 1) (t :: t2 :: tl) acc =
              parseTokens fuel (t2 :: tl) (acc ++ [toFloat t]) := by
            simp [parseTokens, ht]
          rw [step]
          refine ih _ _ i (by omega) (by simp at hil ⊢; omega) (by simpa using hemp) ?_
          intro j hj
          have := hmin (j + 1) (by omega)
          simpa using this

theorem parseTokens_insufficient (fuel : Nat) (ts : List (List Char)) (acc : List ℚ)
    (hts : ts ≠ []) (hlen : ts.length < fuel) (hne : ∀ i < ts.length, ts.getD i [] ≠ []) :
    parseTokens fuel ts acc = .error .insufficientValues := by
  induction fuel generalizing ts acc with
  | zero => omega
  | succ fuel ih =>
    rcases ts with _ | ⟨t, ts'⟩
    · exact absurd rfl hts
    · have ht : t ≠ [] := by
        have := hne 0 (by simp)
        simpa using this
      rcases ts' with _ | ⟨t2, tl⟩
      · have hf : fuel ≠ 0 := by simp at hlen; omega
        simp [parseTokens, ht, hf]
      · have step : parseTokens (fuel + 1) (t :: t2 :: tl) acc =
            parseTokens fuel (t2 :: tl) (acc ++ [toFloat t]) := by
          simp [parseTokens, ht]
        rw [step]
        refine ih _ _ (by simp) (by simp at hlen ⊢; omega) ?_
        intro i hi
        have := hne (i + 1) (by simp at hi ⊢; omega)
        simpa using this

/-- Full characterization of the success flag: the parser succeeds iff
the sanitized stream splits into at least 64 tokens whose first 64 are
all non-empty. Numeric content never matters. -/
theorem parse_ok_iff (s : List Char) :
    isOk (parseMatrizFromString s) = true ↔
      (expectedValues ≤ (splitOnCommas (sanitize s)).length ∧
        ∀ i < expectedValues, (splitOnCommas (sanitize s)).getD i [] ≠ []) := by
  have hrw : parseMatrizFromString s =
      parseTokens expectedValues (splitOnCommas (sanitize s)) [] := by
    rw [parseMatrizFromString, parseLoop_eq_parseTokens]
  constructor
  · intro hok
    by_contra hnot
    push_neg at hnot
    by_cases hlen : expectedValues ≤ (splitOnCommas (sanitize s)).length
    · obtain ⟨i, hi, hempty⟩ := hnot hlen
      have hQ : ∃ k, k < expectedValues ∧ (splitOnCommas (sanitize s)).getD k [] = [] :=
        ⟨i, hi, hempty⟩
      classical
      have hk := Nat.find_spec hQ
      have herr : parseMatrizFromString s = .error .malformedToken := by
        rw [hrw]
        refine parseTokens_malformed _ _ _ (Nat.find hQ) hk.1 (by omega) hk.2 ?_
        intro j hj
        have hnj := Nat.find_min hQ hj
        push_neg at hnj
        exact hnj (by omega)
      rw [herr] at hok
      simp [isOk] at hok
    · push_neg at hlen
      by_cases hall : ∀ i < (splitOnCommas (sanitize s)).length,
          (splitOnCommas (sanitize s)).getD i [] ≠ []
      · have herr : parseMatrizFromString s = .error .insufficientValues := by
          rw [hrw]
          exact parseTokens_insufficient _ _ _ (splitOnCommas_ne_nil _) hlen hall
        rw [herr] at hok
        simp [isOk] at hok
      · push_neg at hall
        obtain ⟨i, hi, hempty⟩ := hall
        have hQ : ∃ k, k < (splitOnCommas (sanitize s)).length ∧
            (splitOnCommas (sanitize s)).getD k [] = [] := ⟨i, hi, hempty⟩
        classical
        have hk := Nat.find_spec hQ
        have herr : parseMatrizFromString s = .error .malformedToken := by
          rw [hrw]
          refine parseTokens_malformed _ _ _ (Nat.find hQ) (by omega) hk.1 hk.2 ?_
          intro j hj
          have hnj := Nat.find_min hQ hj
          push_neg at hnj
          exact hnj (by omega)
        rw [herr] at hok
        simp [isOk] at hok
  · rintro ⟨hlen, hne⟩
    have := parseTokens_ok expectedValues (splitOnCommas (sanitize s)) [] hlen hne
    rw [hrw, this]
    simp [isOk]

/-! ## Sanitizer lemmas -/

theorem sanitize_eq_filter (s : List Char) :
    sanitize s = s.filter (fun c => decide (c ∉ stripChars)) := by
  simp only [sanitize, removeChar, List.filter_filter]
  refine List.filter_congr ?_
  intro x _
  simp [stripChars]
  ac_rfl

/-- Elements of a list are retrievable by getD with map. -/
theorem getD_map_toFloat (ts : List (List Char)) (n : Nat) (h : n < ts.length) :
    (ts.map toFloat).getD n 0 = toFloat (ts.getD n []) := by
  induction ts generalizing n with
  | nil => simp at h
  | cons t ts ih =>
    cases n with
    | zero => simp
    | succ n =>
      simp only [List.map_cons, List.getD_cons_succ]
      exact ih n (by simpa using Nat.lt_of_succ_lt_succ h)

/-- C9: The sanitizer is idempotent: for every input string, stripping
the bracket characters and whitespace twice yields exactly the same
string as stripping them once. -/
theorem claim_C9_sanitize_idempotent (s : List Char) :
    sanitize (sanitize s) = sanitize s := by
  rw [sanitize_eq_filter s, sanitize_eq_filter, List.filter_filter]
  refine List.filter_congr ?_
  intro x _
  cases h : decide (x ∉ stripChars) <;> simp [h]

/-! ## Decision-logic lemmas -/

theorem finRange_labels : List.finRange NUM_LABELS = [0, 1, 2] := by decide

theorem argmaxLoop_unfold (probs : Fin NUM_LABELS → ℚ) :
    argmaxLoop probs =
      (if probs 2 > (if probs 1 > (if probs 0 > 0 then (probs 0, (0 : Int)) else ((0 : ℚ), (-1 : Int))).1
            then (probs 1, (1 : Int))
            else (if probs 0 > 0 then (probs 0, (0 : Int)) else ((0 : ℚ), (-1 : Int)))).1
        then (probs 2, (2 : Int))
        else (if probs 1 > (if probs 0 > 0 then (probs 0, (0 : Int)) else ((0 : ℚ), (-1 : Int))).1
            then (probs 1, (1 : Int))
            else (if probs 0 > 0 then (probs 0, (0 : Int)) else ((0 : ℚ), (-1 : Int))))) := by
  rw [argmaxLoop, finRange_labels]
  simp only [List.foldl_cons, List.foldl_nil]
  rfl

theorem forall_labels (P : Fin NUM_LABELS → Prop) :
    (∀ j, P j) ↔ P 0 ∧ P 1 ∧ P 2 := by
  constructor
  · intro h
    exact ⟨h 0, h 1, h 2⟩
  · rintro ⟨a, b, c⟩ ⟨jv, hj⟩
    have hj3 : jv < 3 := hj
    interval_cases jv
    · exact a
    · exact b
    · exact c

/-- The scan computes the argmax: whenever some probability is positive,
the final `indiceMaior` is the index of the maximum, ties resolved to
the lowest index, and `maiorValor` is that probability. -/
theorem argmaxLoop_argmax (probs : Fin NUM_LABELS → ℚ) (h : ∃ i, 0 < probs i) :
    ∃ k : Fin NUM_LABELS, (argmaxLoop probs).2 = (k.val : Int) ∧
      (argmaxLoop probs).1 = probs k ∧
      (∀ j, probs j ≤ probs k) ∧ (∀ j, j < k → probs j < probs k) := by
  rw [argmaxLoop_unfold]
  split_ifs with h0 h1 h2 h3 h4 h5 h6 <;> dsimp only at *
  · refine ⟨2, by decide, rfl, ?_, ?_⟩
    · exact (forall_labels _).mpr ⟨by linarith, by linarith, le_refl _⟩
    · exact (forall_labels _).mpr
        ⟨fun _ => by linarith, fun _ => by linarith, fun hh => absurd hh (by decide)⟩
  · refine ⟨1, by decide, rfl, ?_, ?_⟩
    · exact (forall_labels _).mpr ⟨by linarith, le_refl _, by linarith⟩
    · exact (forall_labels _).mpr
        ⟨fun _ => by linarith, fun hh => absurd hh (by decide), fun hh => absurd hh (by decide)⟩
  · refine ⟨2, by decide, rfl, ?_, ?_⟩
    · exact (forall_labels _).mpr ⟨by linarith, by linarith, le_refl _⟩
    · exact (forall_labels _).mpr
        ⟨fun _ => by linarith, fun _ => by linarith, fun hh => absurd hh (by decide)⟩
  · refine ⟨0, by decide, rfl, ?_, ?_⟩
    · exact (forall_labels _).mpr ⟨le_refl _, by linarith, by linarith⟩
    · exact (forall_labels _).mpr
        ⟨fun hh => absurd hh (by decide), fun hh => absurd hh (by decide),
          fun hh => absurd hh (by decide)⟩
  · refine ⟨2, by decide, rfl, ?_, ?_⟩
    · exact (forall_labels _).mpr ⟨by linarith, by linarith, le_refl _⟩
    · exact (forall_labels _).mpr
        ⟨fun _ => by linarith, fun _ => by linarith, fun hh => absurd hh (by decide)⟩
  · refine ⟨1, by decide, rfl, ?_, ?_⟩
    · exact (forall_labels _).mpr ⟨by linarith, le_refl _, by linarith⟩
    · exact (forall_labels _).mpr
        ⟨fun _ => by linarith, fun hh => absurd hh (by decide), fun hh => absurd hh (by decide)⟩
  · refine ⟨2, by decide, rfl, ?_, ?_⟩
    · exact (forall_labels _).mpr ⟨by linarith, by linarith, le_refl _⟩
    · exact (forall_labels _).mpr
        ⟨fun _ => by linarith, fun _ => by linarith, fun hh => absurd hh (by decide)⟩
  · obtain ⟨i, hi⟩ := h
    rcases i with ⟨iv, hiv⟩
    have hiv3 : iv < 3 := hiv
    interval_cases iv
    · exact absurd hi h0
    · exact absurd hi h4
    · exact absurd hi h6

/-- If the scan result reaches the threshold, some probability was
positive (the 0.0 initialization cannot reach 0.85). -/
theorem argmaxLoop_pos (probs : Fin NUM_LABELS → ℚ)
    (h : limiar ≤ (argmaxLoop probs).1) : ∃ i, 0 < probs i := by
  have hlim : (0 : ℚ) < limiar := by decide
  rw [argmaxLoop_unfold] at h
  split_ifs at h with h0 h1 h2 h3 h4 h5 h6 <;> dsimp only at * <;>
    first
      | exact ⟨2, by linarith⟩
      | exact ⟨1, by linarith⟩
      | exact ⟨0, by linarith⟩

theorem runDecision_positive_iff (probs : Fin NUM_LABELS → ℚ) :
    (runDecision probs).positive = true ↔ limiar ≤ (argmaxLoop probs).1 := by
  rw [runDecision]
  split_ifs with hc <;> simp [hc]

theorem runDecision_maior (probs : Fin NUM_LABELS → ℚ) :
    (runDecision probs).maiorValor = (argmaxLoop probs).1 ∧
      (runDecision probs).indiceMaior = (argmaxLoop probs).2 := by
  rw [runDecision]
  split_ifs <;> exact ⟨rfl, rfl⟩

theorem runDecision_blinks (probs : Fin NUM_LABELS → ℚ)
    (h : limiar ≤ (argmaxLoop probs).1) :
    (runDecision probs).blinks = blinkCount (argmaxLoop probs).2 := by
  rw [runDecision]
  split_ifs
  rfl

/-- The probability vector [0.10, 0.90, 0.05] of the spec's first
decision example. -/
def exampleProbsA : Fin NUM_LABELS → ℚ := ![mkRat 1 10, mkRat 9 10, mkRat 5 100]

/-- The probability vector [0.50, 0.50, 0.0] of the spec's second
decision example. -/
def exampleProbsB : Fin NUM_LABELS → ℚ := ![mkRat 1 2, mkRat 1 2, 0]

/-- The all-zero probability vector: every entry lies in [0,1], so it
is a legal ProbabilityVector (the spec enforces no sum constraint). -/
def zeroProbs : Fin NUM_LABELS → ℚ := fun _ => 0

/-- C3 counterexample: at the all-zero probability vector — a legal
ProbabilityVector, whose strict-scan argmax with ties resolved to the
lowest index is index 0 (index 0 attains the maximum) — the code keeps
the `-1` sentinel as `indiceMaior`, which is no class index at all, so
the claim's "predicted index is the argmax (ties to the lowest index)"
fails there. -/
theorem claim_C3_counterexample :
    (∀ j : Fin NUM_LABELS, (0 : ℚ) ≤ zeroProbs j ∧ zeroProbs j ≤ 1) ∧
    (∀ j : Fin NUM_LABELS, zeroProbs j ≤ zeroProbs 0) ∧
    (runDecision zeroProbs).indiceMaior = -1 ∧
    (∀ k : Fin NUM_LABELS, (runDecision zeroProbs).indiceMaior ≠ (k.val : Int)) := by
  decide

/-- C3 (amended): For every probability vector with at least one
positive entry — which includes both spec examples and every vector on
which a positive decision is possible — the predicted index is the
argmax scanned in index order with strict `>` (ties to the lowest
index) and the confidence is that probability; for a vector with no
positive entry the scan instead keeps the `-1` sentinel with
confidence 0.0 and the Decision is "none". Unconditionally, the
decision is positive iff confidence >= 0.85, a positive decision emits
index+1 signal repetitions (1/2/3 for classes 0/1/2), and in
particular [0.10, 0.90, 0.05] yields class 1 at 0.90 (positive, 2
repetitions) and [0.50, 0.50, 0.0] yields class 0 at 0.50 with no
positive decision. -/
theorem claim_C3_decision_rule (probs : Fin NUM_LABELS → ℚ) :
    ((∃ i, 0 < probs i) →
      ∃ k : Fin NUM_LABELS,
        (runDecision probs).indiceMaior = (k.val : Int) ∧
        (runDecision probs).maiorValor = probs k ∧
        (∀ j, probs j ≤ probs k) ∧ (∀ j, j < k → probs j < probs k)) ∧
    ((∀ i, probs i ≤ 0) →
      (runDecision probs).indiceMaior = -1 ∧ (runDecision probs).maiorValor = 0 ∧
        (runDecision probs).positive = false) ∧
    ((runDecision probs).positive = true ↔ limiar ≤ (runDecision probs).maiorValor) ∧
    ((runDecision probs).positive = true →
        (runDecision probs).blinks = (runDecision probs).indiceMaior.toNat + 1) ∧
    runDecision exampleProbsA = ⟨mkRat 9 10, 1, true, 2⟩ ∧
    runDecision exampleProbsB = ⟨mkRat 1 2, 0, false, 0⟩ := by
  obtain ⟨hm, hi⟩ := runDecision_maior probs
  refine ⟨?_, ?_, ?_, ?_, by decide, by decide⟩
  · intro h
    obtain ⟨k, hk1, hk2, hk3, hk4⟩ := argmaxLoop_argmax probs h
    exact ⟨k, by rw [hi, hk1], by rw [hm, hk2], hk3, hk4⟩
  · intro hnp
    have h0 : probs 0 ≤ 0 := hnp 0
    have h1 : probs 1 ≤ 0 := hnp 1
    have h2 : probs 2 ≤ 0 := hnp 2
    have hfold : argmaxLoop probs = ((0 : ℚ), (-1 : Int)) := by
      rw [argmaxLoop_unfold]
      split_ifs <;> first
        | rfl
        | (dsimp only at *; linarith)
    have hpos : (runDecision probs).positive = false := by
      rcases hb : (runDecision probs).positive with _ | _
      · rfl
      · have := (runDecision_positive_iff probs).mp hb
        rw [hfold] at this
        exact absurd this (by decide)
    exact ⟨by rw [hi, hfold], by rw [hm, hfold], hpos⟩
  · rw [hm]
    exact runDecision_positive_iff probs
  · intro hpos
    have hc : limiar ≤ (argmaxLoop probs).1 := (runDecision_positive_iff probs).mp hpos
    obtain ⟨k, hk1, _, _, _⟩ := argmaxLoop_argmax probs (argmaxLoop_pos probs hc)
    rw [runDecision_blinks probs hc, hi, hk1]
    rcases k with ⟨kv, hkv⟩
    have hkv3 : kv < 3 := hkv
    interval_cases kv <;> rfl

/-- C3 witness: the theorem applied to the spec's first example vector
(discharging the positive-entry guard and the positivity premise) and
to the all-zero vector (discharging the no-positive-entry premise). -/
theorem claim_C3_witness :
    (∃ i, 0 < exampleProbsA i) ∧
    (∃ k : Fin NUM_LABELS,
        (runDecision exampleProbsA).indiceMaior = (k.val : Int) ∧
        (runDecision exampleProbsA).maiorValor = exampleProbsA k ∧
        (∀ j, exampleProbsA j ≤ exampleProbsA k) ∧
        (∀ j, j < k → exampleProbsA j < exampleProbsA k)) ∧
    (runDecision exampleProbsA).blinks = (runDecision exampleProbsA).indiceMaior.toNat + 1 ∧
    (runDecision zeroProbs).indiceMaior = -1 ∧
    runDecision exampleProbsA = ⟨mkRat 9 10, 1, true, 2⟩ :=
  ⟨⟨1, by decide⟩,
    (claim_C3_decision_rule exampleProbsA).1 ⟨1, by decide⟩,
    (claim_C3_decision_rule exampleProbsA).2.2.2.1 (by decide),
    ((claim_C3_decision_rule zeroProbs).2.1 (fun i => le_refl 0)).1,
    (claim_C3_decision_rule exampleProbsA).2.2.2.2.1⟩

/-- C10: Whenever the positive-decision branch is taken, the selected
index `indiceMaior` is in bounds: nonnegative, below `NUM_LABELS`,
never the -1 sentinel, and a valid index into `LABELS`, so the
`LABELS[indiceMaior]` access and the blink-count switch are in
bounds. -/
theorem claim_C10_positive_index_in_bounds (probs : Fin NUM_LABELS → ℚ)
    (h : (runDecision probs).positive = true) :
    0 ≤ (runDecision probs).indiceMaior ∧
    (runDecision probs).indiceMaior < (NUM_LABELS : Int) ∧
    (runDecision probs).indiceMaior ≠ -1 ∧
    (runDecision probs).indiceMaior.toNat < LABELS.length := by
  have hc : limiar ≤ (argmaxLoop probs).1 := (runDecision_positive_iff probs).mp h
  obtain ⟨k, hk1, _, _, _⟩ := argmaxLoop_argmax probs (argmaxLoop_pos probs hc)
  obtain ⟨_, hi⟩ := runDecision_maior probs
  rw [hi, hk1]
  rcases k with ⟨kv, hkv⟩
  simp only [Fin.val_mk]
  have hkv3 : kv < 3 := hkv
  have hlab : LABELS.length = 3 := by decide
  rw [hlab]
  refine ⟨by omega, by omega, by omega, by omega⟩

/-- C10 witness: the theorem applied to the first example vector, whose
decision is positive. -/
theorem claim_C10_witness :
    (runDecision exampleProbsA).positive = true ∧
      0 ≤ (runDecision exampleProbsA).indiceMaior :=
  ⟨by decide, (claim_C10_positive_index_in_bounds exampleProbsA (by decide)).1⟩

/-- C8: If the inference engine reports failure, the pipeline aborts at
once: no decision is computed and no LED pulse is emitted. -/
theorem claim_C8_inference_failure_aborts (eng : InferenceEngine)
    (h : eng.runOk = false) :
    runInferenceAndBlinkLed eng = .failed ∧
    (∀ d, runInferenceAndBlinkLed eng ≠ .completed d) ∧
    ledPulses eng = 0 := by
  have hr : runInferenceAndBlinkLed eng = .failed := by
    rw [runInferenceAndBlinkLed, h]
    simp
  refine ⟨hr, ?_, ?_⟩
  · intro d hd
    rw [hr] at hd
    exact InferenceOutcome.noConfusion hd
  · rw [ledPulses, hr]

/-- C8 witness: a concrete failing engine. -/
theorem claim_C8_witness :
    runInferenceAndBlinkLed ⟨false, fun _ => 0⟩ = .failed :=
  (claim_C8_inference_failure_aborts ⟨false, fun _ => 0⟩ rfl).1

/-! ## Line-assembler lemmas -/

/-- Full characterization of one `serialEvent` invocation: if the
available bytes contain a line feed, the non-CR bytes before the first
line feed are appended, the completion flag is set, and the bytes after
the line feed are left unread; otherwise all non-CR bytes are appended
and the flag is untouched. -/
theorem serialEvent_spec (avail : List Char) (st : AssemblerState) :
    serialEvent avail st =
      if '\n' ∈ avail then
        (⟨st.inputString ++ (avail.takeWhile (fun c => c ≠ '\n')).filter (fun c => c ≠ '\r'),
            true⟩,
          (avail.dropWhile (fun c => c ≠ '\n')).tail)
      else
        ({ st with inputString := st.inputString ++ avail.filter (fun c => c ≠ '\r') }, []) := by
  induction avail generalizing st with
  | nil => simp [serialEvent]
  | cons c rest ih =>
    by_cases hcr : c = '\r'
    · subst hcr
      rw [serialEvent]
      simp only [if_pos rfl, ih]
      by_cases hmem : '\n' ∈ rest <;>
        simp [hmem, List.takeWhile_cons, List.dropWhile_cons, List.filter_cons]

    · by_cases hnl : c = '\n'
      · subst hnl
        rw [serialEvent]
        simp [hcr, List.takeWhile_cons, List.dropWhile_cons]
      · have hnl2 : ¬ '\n' = c := fun hh => hnl hh.symm
        rw [serialEvent]
        simp only [if_neg hcr, if_neg hnl, ih]
        by_cases hmem : '\n' ∈ rest <;>
          simp [hmem, hnl, hnl2, hcr, List.takeWhile_cons, List.dropWhile_cons, List.filter_cons]

/-- C7: Once a line feed has marked the line complete, no further
arriving bytes are appended until the completed line is consumed:
(a) within the `serialEvent` invocation that sees the line feed, the
bytes after the line feed are not appended but left in the buffer, and
only the non-CR bytes before the line feed reach `inputString`;
(b) `loop()` always clears the flag (consuming the pending line, if
any) before `serialEvent` gets to run again in the next scheduler turn,
so `serialEvent` never appends to a completed line;
(c) carriage-return bytes are always ignored (never appended). -/
theorem claim_C7_line_handoff (st : AssemblerState) (avail : List Char)
    (hlf : '\n' ∈ avail) :
    serialEvent avail st =
      (⟨st.inputString ++ (avail.takeWhile (fun c => c ≠ '\n')).filter (fun c => c ≠ '\r'),
          true⟩,
        (avail.dropWhile (fun c => c ≠ '\n')).tail) ∧
    ('\r' ∉ (serialEvent avail st).1.inputString.drop st.inputString.length) ∧
    ((loopStep st).1.stringComplete = false ∧
      (cycle st avail).1 = (serialEvent avail (loopStep st).1).1) := by
  have hspec := serialEvent_spec avail st
  rw [if_pos hlf] at hspec
  refine ⟨hspec, ?_, ?_, rfl⟩
  · rw [hspec]
    simp only [List.drop_left]
    intro hmem
    simp at hmem
  · rw [loopStep]
    split_ifs with hc
    · rfl
    · simp at hc
      exact hc

/-- C9 witness: the theorem applied to a concrete decorated line. -/
theorem claim_C9_witness :
    sanitize (sanitize ['[', '1', ' ', ',', '2', ']']) =
      sanitize ['[', '1', ' ', ',', '2', ']'] :=
  claim_C9_sanitize_idempotent ['[', '1', ' ', ',', '2', ']']

/-- C7 witness: the theorem applied to a concrete buffer containing a
carriage return, a line feed and trailing bytes. -/
theorem claim_C7_witness :
    '\n' ∈ ['a', '\r', 'b', '\n', 'c'] ∧
      (serialEvent ['a', '\r', 'b', '\n', 'c'] ⟨['x'], false⟩ = (⟨['x', 'a', 'b'], true⟩, ['c'])) := by
  constructor
  · decide
  · have h := (claim_C7_line_handoff ⟨['x'], false⟩ ['a', '\r', 'b', '\n', 'c'] (by decide)).1
    rw [h]
    decide

/-! ## Parser claims -/

theorem getD_mem (ts : List (List Char)) (n : Nat) (h : n < ts.length) :
    ts.getD n [] ∈ ts := by
  induction ts generalizing n with
  | nil => simp at h
  | cons t ts ih =>
    cases n with
    | zero => simp
    | succ n =>
      simp only [List.getD_cons_succ, List.mem_cons]
      exact Or.inr (ih n (by simpa using Nat.lt_of_succ_lt_succ h))

/-- Concrete stream of 64 tokens `1`, comma-separated. -/
def sample64 : List Char := List.intercalate [','] (List.replicate 64 ['1'])

/-- Concrete stream of 65 tokens `1`, comma-separated. -/
def sample65 : List Char := List.intercalate [','] (List.replicate 65 ['1'])

/-- Concrete stream of 64 tokens `0` followed by a trailing comma (an
empty 65th token). -/
def sampleTrailing : List Char :=
  List.intercalate [','] (List.replicate 64 ['0']) ++ [',']

/-- C1: For every input whose sanitized form splits into exactly 64
non-empty comma-separated tokens, the parser succeeds and writes the
tokens row-major: the matrix element at row i, column j is the numeric
value of token i*8+j. -/
theorem claim_C1_row_major (s : List Char) (ts : List (List Char))
    (h1 : splitOnCommas (sanitize s) = ts) (h2 : ts.length = expectedValues)
    (h3 : ∀ t ∈ ts, t ≠ []) (st : DeviceState) :
    parseMatrizFromString s = .ok (ts.map toFloat) ∧
    (parseMatrizCall s st).1 = true ∧
    ∀ (i j : Fin tamMatriz),
      ((parseMatrizCall s st).2).matrizEntrada i j =
        toFloat (ts.getD (i.val * tamMatriz + j.val) []) := by
  have hne : ∀ i < expectedValues, ts.getD i [] ≠ [] := by
    intro i hi
    exact h3 _ (getD_mem ts i (by omega))
  have hok : parseMatrizFromString s = .ok (ts.map toFloat) := by
    rw [parseMatrizFromString, parseLoop_eq_parseTokens, h1,
      parseTokens_ok expectedValues ts [] (le_of_eq h2.symm) hne]
    rw [← h2, List.take_length]
    simp
  refine ⟨hok, ?_, ?_⟩
  · rw [parseMatrizCall, hok]
  · intro i j
    rw [parseMatrizCall, hok]
    have hb : i.val * tamMatriz + j.val < ts.length := by
      have hi : i.val < 8 := i.isLt
      have hj : j.val < 8 := j.isLt
      have hv : i.val * 8 + j.val < 64 := by omega
      rw [h2]
      exact hv
    exact getD_map_toFloat ts _ hb

/-- C1 witness: 64 tokens `1` fill the matrix with ones. -/
theorem claim_C1_witness :
    parseMatrizFromString sample64 = .ok ((List.replicate 64 ['1']).map toFloat) ∧
    (parseMatrizCall sample64 ⟨fun _ _ => 0⟩).2.matrizEntrada 3 5 = 1 := by
  have h := claim_C1_row_major sample64 (List.replicate 64 ['1']) (by decide) (by decide)
    (by decide) ⟨fun _ _ => 0⟩
  exact ⟨h.1, (h.2.2 3 5).trans (by decide)⟩

/-- C2: Whenever the parse call reports failure, the global matrix is
exactly what it was before the call: a failing parse never partially
overwrites `matrizEntrada`. -/
theorem claim_C2_failure_leaves_matrix (s : List Char) (st : DeviceState)
    (h : (parseMatrizCall s st).1 = false) : (parseMatrizCall s st).2 = st := by
  rcases hp : parseMatrizFromString s with vals | e
  · rw [parseMatrizCall, hp] at h
    simp at h
  · rw [parseMatrizCall, hp]

/-- C2 witness: a two-token input fails and the matrix is returned
unchanged. -/
theorem claim_C2_witness :
    (parseMatrizCall ['1', ',', '2'] ⟨fun _ _ => mkRat 7 1⟩).2 = ⟨fun _ _ => mkRat 7 1⟩ :=
  claim_C2_failure_leaves_matrix ['1', ',', '2'] ⟨fun _ _ => mkRat 7 1⟩ (by decide)

/-- C4 counterexample: a sanitized input that contains an empty token (a
trailing comma after 64 well-formed tokens) on which
`parseMatrizFromString` nevertheless succeeds, contradicting the claim
that every input containing an empty token fails. -/
theorem claim_C4_counterexample :
    sanitize sampleTrailing = sampleTrailing ∧
    [] ∈ splitOnCommas sampleTrailing ∧
    isOk (parseMatrizFromString sampleTrailing) = true := by
  refine ⟨by decide, by decide, by decide⟩

/-- C4 (amended): parsing fails with `malformedToken` whenever an empty
token occurs among the first 64 tokens of the sanitized stream (two
consecutive commas, a leading comma, a trailing comma or an empty stream
all produce one, provided fewer than 64 tokens precede it); an empty
token after the 64th token is never examined. -/
theorem claim_C4_empty_token (s : List Char) (i : Nat)
    (hif : i < expectedValues)
    (hil : i < (splitOnCommas (sanitize s)).length)
    (hemp : (splitOnCommas (sanitize s)).getD i [] = []) :
    parseMatrizFromString s = .error .malformedToken := by
  classical
  have hQ : ∃ k, (splitOnCommas (sanitize s)).getD k [] = [] := ⟨i, hemp⟩
  have hk := Nat.find_spec hQ
  have hle : Nat.find hQ ≤ i := Nat.find_min' hQ hemp
  rw [parseMatrizFromString, parseLoop_eq_parseTokens]
  refine parseTokens_malformed _ _ _ (Nat.find hQ) (by omega) (by omega) hk ?_
  intro j hj
  exact Nat.find_min hQ hj

/-- C4 amended-claim witness: the input `1,,2` (empty second token). -/
theorem claim_C4_witness :
    parseMatrizFromString ['1', ',', ',', '2'] = .error .malformedToken :=
  claim_C4_empty_token ['1', ',', ',', '2'] 1 (by decide) (by decide) (by decide)

/-- C5: For every input whose sanitized form splits into more than 64
non-empty tokens, parsing succeeds using exactly the first 64 tokens;
tokens beyond the 64th have no effect on the success flag or on the
matrix (every matrix entry comes from the first 64 tokens). -/
theorem claim_C5_extra_tokens_ignored (s : List Char) (ts : List (List Char))
    (h1 : splitOnCommas (sanitize s) = ts) (h2 : expectedValues < ts.length)
    (h3 : ∀ t ∈ ts, t ≠ []) (st : DeviceState) :
    parseMatrizFromString s = .ok ((ts.take expectedValues).map toFloat) ∧
    (parseMatrizCall s st).1 = true ∧
    ∀ (i j : Fin tamMatriz),
      ((parseMatrizCall s st).2).matrizEntrada i j =
        toFloat ((ts.take expectedValues).getD (i.val * tamMatriz + j.val) []) := by
  have hne : ∀ i < expectedValues, ts.getD i [] ≠ [] := by
    intro i hi
    exact h3 _ (getD_mem ts i (by omega))
  have hok : parseMatrizFromString s = .ok ((ts.take expectedValues).map toFloat) := by
    rw [parseMatrizFromString, parseLoop_eq_parseTokens, h1,
      parseTokens_ok expectedValues ts [] (le_of_lt h2) hne]
    simp
  refine ⟨hok, ?_, ?_⟩
  · rw [parseMatrizCall, hok]
  · intro i j
    rw [parseMatrizCall, hok]
    have hb : i.val * tamMatriz + j.val < (ts.take expectedValues).length := by
      have hi : i.val < 8 := i.isLt
      have hj : j.val < 8 := j.isLt
      have hv : i.val * 8 + j.val < 64 := by omega
      have hlen : (ts.take expectedValues).length = expectedValues := by
        rw [List.length_take]
        exact Nat.min_eq_left (le_of_lt h2)
      rw [hlen]
      exact hv
    exact getD_map_toFloat _ _ hb

/-- C5 witness: 65 tokens `1` succeed, using the first 64. -/
theorem claim_C5_witness :
    parseMatrizFromString sample65 =
      .ok (((List.replicate 65 ['1']).take expectedValues).map toFloat) :=
  (claim_C5_extra_tokens_ignored sample65 (List.replicate 65 ['1']) (by decide)
    (by decide) (by decide) ⟨fun _ _ => 0⟩).1

theorem takeWhile_isDigit_nil {l : List Char} (h : ∀ c ∈ l, c.isDigit = false) :
    l.takeWhile Char.isDigit = [] := by
  cases l with
  | nil => rfl
  | cons a l => simp [List.takeWhile_cons, h a (by simp)]

theorem dropWhile_isDigit_self {l : List Char} (h : ∀ c ∈ l, c.isDigit = false) :
    l.dropWhile Char.isDigit = l := by
  cases l with
  | nil => rfl
  | cons a l => simp [List.dropWhile_cons, h a (by simp)]

/-- A token with no digit character converts to 0.0. -/
theorem toFloat_eq_zero_of_no_digit (t : List Char)
    (h : ∀ c ∈ t, c.isDigit = false) : toFloat t = 0 := by
  have hsub : ∀ c ∈ (splitSign t).2, c.isDigit = false := by
    intro c hc
    apply h
    rcases t with _ | ⟨c0, r⟩
    · simpa [splitSign] using hc
    · revert hc
      rw [splitSign.eq_def]
      split <;> intro hc <;> simp_all
  have h1 : (splitSign t).2.takeWhile Char.isDigit = [] := takeWhile_isDigit_nil hsub
  have h2 : (splitSign t).2.dropWhile Char.isDigit = (splitSign t).2 :=
    dropWhile_isDigit_self hsub
  rw [toFloat]
  simp only [h1, h2]
  rcases hsg : (splitSign t).2 with _ | ⟨c2, r2⟩
  · simp
  · have hr2 : r2.takeWhile Char.isDigit = [] := by
      refine takeWhile_isDigit_nil ?_
      intro c hc
      exact hsub c (by rw [hsg]; exact List.mem_cons_of_mem _ hc)
    by_cases hdot : c2 = '.'
    · subst hdot
      simp [hr2]
    · simp [hdot]

/-- C6: Numeric conversion never fails at the parser level: a non-empty
token with no digit (hence not convertible to a valid number) converts
to 0.0 and parsing proceeds, and parser success is exactly a matter of
token structure (at least 64 tokens, the first 64 non-empty) — the
numeric content of non-empty tokens can never make the parser return
false. -/
theorem claim_C6_lenient_conversion :
    (∀ t : List Char, (∀ c ∈ t, c.isDigit = false) → toFloat t = 0) ∧
    (∀ s : List Char, isOk (parseMatrizFromString s) = true ↔
      (expectedValues ≤ (splitOnCommas (sanitize s)).length ∧
        ∀ i < expectedValues, (splitOnCommas (sanitize s)).getD i [] ≠ [])) :=
  ⟨toFloat_eq_zero_of_no_digit, parse_ok_iff⟩

/-- C6 witness: the non-numeric token `abc` converts to 0, and a stream
of 64 such tokens parses successfully. -/
theorem claim_C6_witness :
    toFloat ['a', 'b', 'c'] = 0 ∧
    isOk (parseMatrizFromString (List.intercalate [','] (List.replicate 64 ['a', 'b', 'c']))) =
      true :=
  ⟨claim_C6_lenient_conversion.1 ['a', 'b', 'c'] (by decide),
    (claim_C6_lenient_conversion.2 _).mpr (by decide)⟩

end SerialIACNN
